import Mathlib

/-!
Verification of the element-generation pipeline of momepy `elements.py`:
morphological tessellation, street-network edge snapping, and street-edge
segmentation.

Modelling conventions.  Geometric primitives that the Python code delegates to
external libraries (shapely, rtree, scipy, osgeo) are modelled at the level the
code consumes them: geometries are finite point sets over ℚ where the code only
tests intersection and bounding boxes, or opaque values paired with abstract
measure functions (intersection length, area) where the code only compares
those measures.  Python floats are modelled as exact rationals, except for the
trigonometric extrapolation which is modelled over ℝ.  `math.sqrt` values that
are only ever compared are carried as their squares (sqrt is strictly monotone
on nonnegatives, so every comparison and arg-min the code performs is
unchanged).  Python runtime errors (`ZeroDivisionError` on dividing by a zero
denominator, `ValueError` from `max` of an empty dict) are modelled by
`Option` results, `none` standing for the raised exception.
-/

namespace Momepy

/-- Points with exact rational coordinates, modelling Python float coordinate
pairs. -/
abbrev Pt : Type := ℚ × ℚ

/-- Bounding box `(minx, miny, maxx, maxy)`, as used by the rtree spatial index
and by shapely `bounds`. -/
structure Box where
  minx : ℚ
  miny : ℚ
  maxx : ℚ
  maxy : ℚ
deriving DecidableEq

/-- Overlap test between two bounding boxes; this is the hit condition of an
`rtree.index.Index.intersection` query. -/
def boxOverlap (b1 b2 : Box) : Bool :=
  decide (b1.minx ≤ b2.maxx ∧ b2.minx ≤ b1.maxx ∧ b1.miny ≤ b2.maxy ∧ b2.miny ≤ b1.maxy)

/-- Extension of a bounding box by a further list of points (helper for
`boundsOf`). -/
def boundsFold : List Pt → Box → Box
  | [], bx => bx
  | q :: qs, bx => boundsFold qs ⟨min bx.minx q.1, min bx.miny q.2, max bx.maxx q.1, max bx.maxy q.2⟩

/-- shapely `.bounds` of a finite point-set geometry; `none` for the empty
geometry (which has no bounds and never hits the index). -/
def boundsOf : List Pt → Option Box
  | [] => none
  | p :: ps => some (boundsFold ps ⟨p.1, p.2, p.1, p.2⟩)

/-- Box overlap lifted to optional boxes. -/
def boxOverlapO : Option Box → Option Box → Bool
  | some b1, some b2 => boxOverlap b1 b2
  | _, _ => false

/-- Intersection test between two finite-point-set geometries: they intersect
iff they share a point.  This models the shapely `intersection(...)` being
non-empty (pandas `.any()` counts a geometry as truthy exactly when it is
non-empty). -/
def ptsIntersect (g1 g2 : List Pt) : Bool :=
  g1.any (fun p => decide (p ∈ g2))

/-- The common acceptance step of `extend_line` (elements.py 401-412) and
`extend_line_edge` (elements.py 450-461) of `snap_street_network_edge`: once a
candidate extension point `newPt` has been found, it is appended to the
coordinate list `lcoords`, the building rtree `bindex` is queried with the
extended line's bounds, the candidate buildings are intersected with the
extended line, and the extended line is stored as the segment's geometry only
when no such intersection is non-empty; otherwise the stored geometry `old`
is left unchanged. -/
def storeIfNoBuilding (buildings : List (List Pt)) (lcoords : List Pt) (newPt : Pt)
    (old : List Pt) : List Pt :=
  if (buildings.filter
        (fun b => boxOverlapO (boundsOf b) (boundsOf (lcoords ++ [newPt])))).any
      (fun b => ptsIntersect b (lcoords ++ [newPt])) then
    old
  else lcoords ++ [newPt]

/-- The per-segment dispatch of `snap_street_network_edge` (elements.py
494-512) on the connectivity of the segment's two endpoints (`first` for the
start point `l_coords[0]`, `second` for the end point `l_coords[-1]`).  `ext`
abstracts the combined effect on the coordinate list of the closure
`extend_line` (with its `extend_line_edge` fallback): it receives the current
coordinate list and extends the endpoint stored LAST in it, because the
closures always extrapolate from `l_coords[-2:]` and append to the end.  The
returned list is the final state of `l_coords`. -/
def snapSegment (first second : Bool) (ext : List Pt → List Pt) (l : List Pt) : List Pt :=
  match first, second with
  | true, true => l
  | true, false => ext l
  | false, true => ext l.reverse
  | false, false => ext (ext l).reverse

/-- Extension of the endpoint stored last in the coordinate list (what
`extend_line` does to `l_coords` directly). -/
def extendEnd (ext : List Pt → List Pt) (l : List Pt) : List Pt := ext l

/-- Extension of the start point: reverse so the start is last, extend, then
restore the original orientation. -/
def extendStart (ext : List Pt → List Pt) (l : List Pt) : List Pt := (ext l.reverse).reverse

/-- Modelled from the spec: "neither endpoint connected → extend both endpoints
independently (process start first, then end, using the possibly-already-
extended coordinate list)".  The start is extended first (on the reversed list,
whose last element is the start point), then the end is extended second on the
re-reversed, possibly-already-extended list. -/
def snapBothStartFirst (ext : List Pt → List Pt) (l : List Pt) : List Pt :=
  ext (ext l.reverse).reverse

/-- A concrete instance of the abstracted extension operation: it appends one
point whose coordinates depend on the current coordinate list, as the real
`extend_line` appends a point computed from the current list.  Used to separate
the two processing orders observably. -/
def extProbe (l : List Pt) : List Pt := l ++ [((l.length : ℚ), 0)]

/-- The left spatial join `gpd.sjoin(voronoi_polygons, objects, how='left')` of
elements.py 247: every Voronoi polygon is paired with the uID of each building
object whose (pointized) geometry intersects it; a polygon with no match keeps
a null uID.  `ib` abstracts the shapely intersection predicate used by the
join, `objs` are the pointized buildings carrying their uID. -/
def sjoinLeft {G : Type} (ib : G → G → Bool) (objs : List (ℕ × G)) (polys : List G) :
    List (Option ℕ × G) :=
  polys.flatMap (fun p =>
    if (objs.filter (fun o => ib o.2 p)).isEmpty then [(none, p)]
    else (objs.filter (fun o => ib o.2 p)).map (fun o => (some o.1, p)))

/-- uID values of the rows returned by the spatial index for an unjoined cell:
`voronoi_with_id.iloc[n][uID]` for each index `n` in the rtree answer, with
null (NaN) values dropped afterwards (elements.py 262-266). -/
def neighborsIds {G : Type} (rows : List (Option ℕ × G)) (ns : List ℕ) : List ℕ :=
  ns.filterMap (fun n => (rows.get? n).bind Prod.fst)

/-- Deduplication keeping the first occurrence of each key, i.e. Python dict
insertion order (helper with an accumulator of already seen keys). -/
def firstDedupAux (seen : List ℕ) : List ℕ → List ℕ
  | [] => []
  | a :: l => if a ∈ seen then firstDedupAux seen l else a :: firstDedupAux (a :: seen) l

/-- Keys of a Python dict built by repeated assignment, in insertion order. -/
def firstDedup (l : List ℕ) : List ℕ := firstDedupAux [] l

/-- Total shared-boundary length of the cell geometry `g` with all rows
currently carrying uID `i`: the sum of `row.geometry.intersection(s).length`
over the subset of the table with uID `i` (elements.py 270-275).  `il`
abstracts the shapely intersection length. -/
def boundaryLen {G α : Type} [AddCommMonoid α] (il : G → G → α) (rows : List (Option ℕ × G))
    (g : G) (i : ℕ) : α :=
  ((rows.filter (fun r => decide (r.1 = some i))).map (fun r => il g r.2)).sum

/-- The `boundaries` dict of elements.py 268-275, as an association list in
Python dict insertion order (first occurrence of each neighbour uID; a repeated
assignment overwrites the value, which is recomputed identically, and keeps the
original position). -/
def boundariesDict {G α : Type} [AddCommMonoid α] (Q : G → List ℕ) (il : G → G → α)
    (rows : List (Option ℕ × G)) (g : G) : List (ℕ × α) :=
  (firstDedup (neighborsIds rows (Q g))).map (fun i => (i, boundaryLen il rows g i))

/-- Python `max(d.items(), key=operator.itemgetter(1))` over an association
list in insertion order: the current best is replaced only on a strictly
larger value, so the FIRST maximal item wins ties.  `none` models the
ValueError raised on an empty dict. -/
def pyMax {α : Type} [LinearOrder α] (l : List (ℕ × α)) : Option (ℕ × α) :=
  match l with
  | [] => none
  | x :: xs => some (xs.foldl (fun b y => if b.2 < y.2 then y else b) x)

/-- Resolution of one unjoined Voronoi cell (elements.py 261-277): query the
spatial index `Q` with the cell's geometry, collect the neighbours' non-null
uIDs, build the boundaries dict, and assign the cell the key of the maximal
item.  `none` models the ValueError from an empty boundaries dict (or an
out-of-range row, which cannot occur in the source). -/
def resolveCell {G α : Type} [LinearOrderedAddCommMonoid α] (Q : G → List ℕ) (il : G → G → α)
    (rows : List (Option ℕ × G)) (idx : ℕ) : Option (List (Option ℕ × G)) :=
  (rows.get? idx).bind (fun r =>
    (pyMax (boundariesDict Q il rows r.2)).map (fun kv => rows.set idx (some kv.1, r.2)))

/-- Positions of the rows that failed the spatial join (null uID), fixed before
the resolution loop starts (elements.py 252). -/
def unjoinedIdxs {G : Type} (rows : List (Option ℕ × G)) : List ℕ :=
  (List.range rows.length).filter (fun i => decide ((rows.get? i).map Prod.fst = some none))

/-- The whole unjoined-cell resolution loop of `tessellation()`, threading the
mutated table through the iterations; `none` models a crash of any single
iteration. -/
def resolveAll {G α : Type} [LinearOrderedAddCommMonoid α] (Q : G → List ℕ) (il : G → G → α)
    (rows : List (Option ℕ × G)) : Option (List (Option ℕ × G)) :=
  (unjoinedIdxs rows).foldlM (resolveCell Q il) rows

/-- The uID values carried by the output of
`voronoi_with_id.dissolve(by=unique_id)` (elements.py 283): the dissolve groups
the rows by uID, so the output carries each distinct uID exactly once (the
pandas groupby key order does not matter to the claims and is left
unspecified). -/
def dissolvedUIDs {G : Type} (rows : List (Option ℕ × G)) : List ℕ :=
  (rows.filterMap Prod.fst).dedup

/-- Modelled from the spec: the tie-break the spec claims for the unjoined-cell
resolution — among the keys attaining the maximal value, choose the smallest
key.  Kept for comparison with `pyMax`. -/
def specTiePick {α : Type} [LinearOrder α] (d : List (ℕ × α)) : Option ℕ :=
  ((d.filter (fun e => d.all (fun f => decide (f.2 ≤ e.2)))).map Prod.fst).min?

/-- A single-part polygon of the clipping step of `tessellation()`, carrying
its shapely `.area` and a tag distinguishing distinct parts. -/
abbrev PPoly (α : Type) : Type := α × ℕ

/-- The value of `row.geometry.intersection(built_up)` as inspected by the
cutting loop: a single polygon, or a multi-part polygon with its list of parts
(elements.py 315-316). -/
inductive PyGeomC (α : Type) : Type where
  | polygon (p : PPoly α)
  | multiPolygon (parts : List (PPoly α))
deriving DecidableEq

/-- The `areas` dict of elements.py 317-320: part index ↦ part area, keys in
index (= dict insertion) order. -/
def partAreas {α : Type} [Zero α] (parts : List (PPoly α)) : List (ℕ × α) :=
  (List.range parts.length).map (fun i => (i, (parts.getD i (0, 0)).1))

/-- The body of the cutting loop of `tessellation()` (elements.py 314-324):
the cell's geometry is replaced by its intersection with the study area; for a
multi-part intersection only the part whose index wins `max(areas.items(),
key=itemgetter(1))` is kept.  `none` models the ValueError on an empty
multi-part intersection. -/
def cutCell {α : Type} [LinearOrder α] [Zero α] : PyGeomC α → Option (PPoly α)
  | PyGeomC.polygon p => some p
  | PyGeomC.multiPolygon parts => (pyMax (partAreas parts)).bind (fun m => parts.get? m.1)

/-- The INFTY constant of `street_edges()` (elements.py 650), squared because
the model carries squared distances. -/
def INFTY2 : ℚ := (10 ^ 12) ^ 2

/-- The MIN_SIZE constant of `street_edges()` (elements.py 651). -/
def MIN_SIZE : ℚ := 100

/-- Squared Euclidean distance.  The Python `distance` (elements.py 657-658)
returns `math.sqrt` of this; sqrt is strictly monotone, so every comparison and
arg-min the code performs on distances coincides with the one on the squares
carried by the model. -/
def distance_sq (a b : Pt) : ℚ := (a.1 - b.1) ^ 2 + (a.2 - b.2) ^ 2

/-- The projection parameter `t` of `get_distance` (elements.py 666-667). -/
def tParam (a : Pt) (seg : Pt × Pt) : ℚ :=
  ((a.1 - seg.1.1) * (seg.2.1 - seg.1.1) + (a.2 - seg.1.2) * (seg.2.2 - seg.1.2)) /
    ((seg.2.1 - seg.1.1) ^ 2 + (seg.2.2 - seg.1.2) ^ 2)

/-- `get_distance` (elements.py 660-678): the closest point of segment `seg` to
`apoint` and its distance (carried squared, see `distance_sq`).  `none` models
the ZeroDivisionError raised on a zero-length segment, whose squared length —
the denominator of `t` — is zero. -/
def get_distance (a : Pt) (seg : Pt × Pt) : Option (Pt × ℚ) :=
  if (seg.2.1 - seg.1.1) ^ 2 + (seg.2.2 - seg.1.2) ^ 2 = 0 then none
  else if 0 < tParam a seg ∧ tParam a seg < 1 then
    some ((tParam a seg * (seg.2.1 - seg.1.1) + seg.1.1,
           tParam a seg * (seg.2.2 - seg.1.2) + seg.1.2),
          distance_sq a (tParam a seg * (seg.2.1 - seg.1.1) + seg.1.1,
                         tParam a seg * (seg.2.2 - seg.1.2) + seg.1.2))
  else if tParam a seg ≤ 0 then some (seg.1, distance_sq a seg.1)
  else some (seg.2, distance_sq a seg.2)

/-- An rtree item yielded by `get_rtree` (elements.py 690): the street-name
token `lid`, the 2-point sub-segment, and the network id `nid`. -/
abbrev StItem : Type := ℕ × (Pt × Pt) × ℕ

/-- The bounding box yielded for a sub-segment (elements.py 688). -/
def segBox (s : Pt × Pt) : Box :=
  ⟨min s.1.1 s.2.1, min s.1.2 s.2.2, max s.1.1 s.2.1, max s.1.2 s.2.2⟩

/-- The fixed query box `pbox` of side `2 * size` centred at `p`
(elements.py 697). -/
def pointBox (p : Pt) (size : ℚ) : Box := ⟨p.1 - size, p.2 - size, p.1 + size, p.2 + size⟩

/-- `idx.intersection(pbox, objects='raw')`: the indexed sub-segments whose
bounding box overlaps the query box. -/
def hitsIn (segs : List StItem) (p : Pt) (size : ℚ) : List StItem :=
  segs.filter (fun h => boxOverlap (segBox h.2.1) (pointBox p size))

/-- Distance (squared) of `p` to a hit, defaulting to 0 for a crashing
`get_distance` (the default is never consulted under the no-crash
hypothesis). -/
def distOf (p : Pt) (h : StItem) : ℚ := ((get_distance p h.2.1).map Prod.snd).getD 0

/-- One iteration of the scan of `get_solution` (elements.py 701-706): on
`d >= new_d` both the running distance and the stored solution are updated, so
a tie goes to the later hit. -/
def stepSol (p : Pt) (acc : ℚ × Option StItem) (h : StItem) : ℚ × Option StItem :=
  if acc.1 ≥ distOf p h then (distOf p h, some h) else acc

/-- The scan of `get_solution` as a total fold (companion of `scanHits`, equal
to it when no hit makes `get_distance` crash). -/
def scanPure (p : Pt) (hs : List StItem) : ℚ × Option StItem :=
  hs.foldl (stepSol p) (INFTY2, none)

/-- The scan of `get_solution` over the hits of one centroid, propagating a
ZeroDivisionError of `get_distance` as `none`. -/
def scanHits (p : Pt) (hs : List StItem) : Option (ℚ × Option StItem) :=
  hs.foldlM (fun acc h => (get_distance p h.2.1).map
    (fun r => if acc.1 ≥ r.2 then (r.2, some h) else acc)) (INFTY2, none)

/-- What `get_solution` stores for a centroid: the chosen item, or the sentinel
pair `(0, 0)` written when `s` is still `None` after the scan (elements.py
707-709). -/
inductive SolEntry : Type where
  | found (item : StItem)
  | sentinel
deriving DecidableEq

/-- `get_solution` (elements.py 694-709) restricted to a single centroid
`p`. -/
def get_solution_point (segs : List StItem) (size : ℚ) (p : Pt) : Option SolEntry :=
  (scanHits p (hitsIn segs p size)).map
    (fun r => match r.2 with
      | some it => SolEntry.found it
      | none => SolEntry.sentinel)

/-- The perturbed direction angle of `getExtrapoledLine` (elements.py 352-363):
all four sign branches compute
`atan(fabs(p1y - p2y + 0.000001) / fabs(p1x - p2x + 0.000001))`. -/
noncomputable def extrapolAngle (p1 p2 : ℝ × ℝ) : ℝ :=
  Real.arctan (|p1.2 - p2.2 + 1 / 1000000| / |p1.1 - p2.1 + 1 / 1000000|)

/-- The second endpoint `b` of the extrapolated line, chosen by the sign
comparison of the coordinates of `p1` and `p2` (elements.py 352-363). -/
noncomputable def extrapolTarget (p1 p2 : ℝ × ℝ) (tol : ℝ) : ℝ × ℝ :=
  if p1.1 ≥ p2.1 ∧ p1.2 ≥ p2.2 then
    (p2.1 - tol * Real.cos (extrapolAngle p1 p2), p2.2 - tol * Real.sin (extrapolAngle p1 p2))
  else if p1.1 ≤ p2.1 ∧ p1.2 ≥ p2.2 then
    (p2.1 + tol * Real.cos (extrapolAngle p1 p2), p2.2 - tol * Real.sin (extrapolAngle p1 p2))
  else if p1.1 ≤ p2.1 ∧ p1.2 ≤ p2.2 then
    (p2.1 + tol * Real.cos (extrapolAngle p1 p2), p2.2 + tol * Real.sin (extrapolAngle p1 p2))
  else
    (p2.1 - tol * Real.cos (extrapolAngle p1 p2), p2.2 + tol * Real.sin (extrapolAngle p1 p2))

/-- `getExtrapoledLine` (elements.py 346-364): the line `[a, b]` extrapolated
from `p1` towards `p2`, starting at `a = p2`, with target computed through the
perturbed angle.  `none` models the ZeroDivisionError raised when the fudged
denominator `fabs(p1x - p2x + 0.000001)` is zero. -/
noncomputable def getExtrapoledLine (p1 p2 : ℝ × ℝ) (tol : ℝ) :
    Option ((ℝ × ℝ) × (ℝ × ℝ)) :=
  if |p1.1 - p2.1 + 1 / 1000000| = 0 then none
  else some (p2, extrapolTarget p1 p2 tol)

/-- Two planar vectors are collinear when their cross product vanishes. -/
def isCollinear (u v : ℝ × ℝ) : Prop := u.1 * v.2 - u.2 * v.1 = 0

/-- The property claimed of the extrapolation at a given input: it returns a
segment whose first endpoint is exactly `p2`, whose length is exactly `tol`,
and whose direction is collinear with the vector from `p1` to `p2`. -/
def extrapolationClaimAt (p1 p2 : ℝ × ℝ) (tol : ℝ) : Prop :=
  ∃ b : ℝ × ℝ, getExtrapoledLine p1 p2 tol = some (p2, b) ∧
    Real.sqrt ((b.1 - p2.1) ^ 2 + (b.2 - p2.2) ^ 2) = tol ∧
    isCollinear (p2.1 - p1.1, p2.2 - p1.2) (b.1 - p2.1, b.2 - p2.2)

/-! Helper lemmas about bounding boxes of finite point sets. -/

theorem boundsFold_spec (qs : List Pt) (bx : Box) :
    (boundsFold qs bx).minx ≤ bx.minx ∧ bx.maxx ≤ (boundsFold qs bx).maxx ∧
    (boundsFold qs bx).miny ≤ bx.miny ∧ bx.maxy ≤ (boundsFold qs bx).maxy ∧
    ∀ q ∈ qs, (boundsFold qs bx).minx ≤ q.1 ∧ q.1 ≤ (boundsFold qs bx).maxx ∧
      (boundsFold qs bx).miny ≤ q.2 ∧ q.2 ≤ (boundsFold qs bx).maxy := by
  induction qs generalizing bx with
  | nil => simp [boundsFold]
  | cons q qs ih =>
    obtain ⟨h1, h2, h3, h4, h5⟩ :=
      ih ⟨min bx.minx q.1, min bx.miny q.2, max bx.maxx q.1, max bx.maxy q.2⟩
    refine ⟨le_trans h1 (min_le_left _ _), le_trans (le_max_left _ _) h2,
      le_trans h3 (min_le_left _ _), le_trans (le_max_left _ _) h4, ?_⟩
    intro w hw
    rcases List.mem_cons.mp hw with h | h
    · subst h
      exact ⟨le_trans h1 (min_le_right _ _), le_trans (le_max_right _ _) h2,
        le_trans h3 (min_le_right _ _), le_trans (le_max_right _ _) h4⟩
    · exact h5 w h

theorem mem_boundsOf (p : Pt) (l : List Pt) (hp : p ∈ l) :
    ∃ bx, boundsOf l = some bx ∧
      bx.minx ≤ p.1 ∧ p.1 ≤ bx.maxx ∧ bx.miny ≤ p.2 ∧ p.2 ≤ bx.maxy := by
  cases l with
  | nil => cases hp
  | cons q qs =>
    obtain ⟨h1, h2, h3, h4, h5⟩ := boundsFold_spec qs ⟨q.1, q.2, q.1, q.2⟩
    refine ⟨boundsFold qs ⟨q.1, q.2, q.1, q.2⟩, rfl, ?_⟩
    rcases List.mem_cons.mp hp with h | h
    · subst h
      exact ⟨h1, h2, h3, h4⟩
    · exact h5 p h

theorem boxOverlap_of_common (p : Pt) (b1 b2 : Box)
    (h1 : b1.minx ≤ p.1 ∧ p.1 ≤ b1.maxx ∧ b1.miny ≤ p.2 ∧ p.2 ≤ b1.maxy)
    (h2 : b2.minx ≤ p.1 ∧ p.1 ≤ b2.maxx ∧ b2.miny ≤ p.2 ∧ p.2 ≤ b2.maxy) :
    boxOverlap b1 b2 = true := by
  apply decide_eq_true
  exact ⟨le_trans h1.1 h2.2.1, le_trans h2.1 h1.2.1,
    le_trans h1.2.2.1 h2.2.2.2, le_trans h2.2.2.1 h1.2.2.2⟩

theorem ptsIntersect_boxOverlapO (b g : List Pt) (h : ptsIntersect b g = true) :
    boxOverlapO (boundsOf b) (boundsOf g) = true := by
  obtain ⟨p, hpb, hpg⟩ := List.any_eq_true.mp h
  have hpg' : p ∈ g := of_decide_eq_true hpg
  obtain ⟨bx1, hb1, h1⟩ := mem_boundsOf p b hpb
  obtain ⟨bx2, hb2, h2⟩ := mem_boundsOf p g hpg'
  rw [hb1, hb2]
  exact boxOverlap_of_common p bx1 bx2 h1 h2

/-- C5: in `snap_street_network_edge`, once a candidate extension point has
been found (in `extend_line` or `extend_line_edge`), the stored geometry is
replaced by the extended line exactly when the extended line intersects no
building footprint; when it intersects a building, the extension is rejected
and the stored geometry is left unchanged.  The rtree pre-filter on bounding
boxes loses no intersecting building, so the accept condition over the
filtered candidates coincides with the one over all buildings. -/
theorem extension_building_check (buildings : List (List Pt)) (lcoords : List Pt)
    (newPt : Pt) (old : List Pt) :
    ((∀ b ∈ buildings, ¬ ptsIntersect b (lcoords ++ [newPt]) = true) →
      storeIfNoBuilding buildings lcoords newPt old = lcoords ++ [newPt]) ∧
    ((∃ b ∈ buildings, ptsIntersect b (lcoords ++ [newPt]) = true) →
      storeIfNoBuilding buildings lcoords newPt old = old) := by
  constructor
  · intro hno
    unfold storeIfNoBuilding
    rw [if_neg]
    intro hany
    obtain ⟨b, hbmem, hbint⟩ := List.any_eq_true.mp hany
    exact hno b (List.mem_of_mem_filter hbmem) hbint
  · intro hex
    obtain ⟨b, hb, hint⟩ := hex
    unfold storeIfNoBuilding
    rw [if_pos]
    refine List.any_eq_true.mpr ⟨b, ?_, hint⟩
    refine List.mem_filter.mpr ⟨hb, ?_⟩
    exact ptsIntersect_boxOverlapO b _ hint

theorem extension_building_check_witness :
    storeIfNoBuilding [[((5 : ℚ), (5 : ℚ))]] [((0 : ℚ), (0 : ℚ))] ((1 : ℚ), (1 : ℚ))
        [((9 : ℚ), (9 : ℚ))] = [((0 : ℚ), (0 : ℚ))] ++ [((1 : ℚ), (1 : ℚ))] :=
  (extension_building_check [[((5 : ℚ), (5 : ℚ))]] [((0 : ℚ), (0 : ℚ))] ((1 : ℚ), (1 : ℚ))
    [((9 : ℚ), (9 : ℚ))]).1 (by decide)

/-- C4 (counterexample): the both-unconnected branch of
`snap_street_network_edge` does not process the start point first.  With a
concrete extension operation and a concrete coordinate list, the coordinate
list produced by the code differs, in both orientations, from the result of
processing the start point first and the end point second. -/
theorem snap_both_ends_counterexample :
    ¬ (snapSegment false false extProbe [((5 : ℚ), 5), (7, 7)] =
         snapBothStartFirst extProbe [((5 : ℚ), 5), (7, 7)] ∨
       snapSegment false false extProbe [((5 : ℚ), 5), (7, 7)] =
         (snapBothStartFirst extProbe [((5 : ℚ), 5), (7, 7)]).reverse) := by
  decide

/-- C4 (amended): in the both-unconnected branch the end point (the last
coordinate of `l_coords`) is extended first, and the start point is extended
second, the second extension operating on the reversed coordinate list
possibly already extended by the first; the stored coordinate list is the
orientation-reversal of that end-first-then-start processing. -/
theorem snap_both_ends_amended (ext : List Pt → List Pt) (l : List Pt) :
    snapSegment false false ext l = (extendStart ext (extendEnd ext l)).reverse := by
  simp [snapSegment, extendStart, extendEnd]

/-! Helper lemmas about the Python argmax over dict items. -/

theorem pyFold_split {α : Type} [LinearOrder α] (ys : List (ℕ × α)) (b : ℕ × α) :
    (ys.foldl (fun b y => if b.2 < y.2 then y else b) b = b ∧ ∀ y ∈ ys, y.2 ≤ b.2) ∨
    (∃ pre y post, ys = pre ++ y :: post ∧
      ys.foldl (fun b y => if b.2 < y.2 then y else b) b = y ∧ b.2 < y.2 ∧
      (∀ z ∈ pre, z.2 < y.2) ∧ (∀ z ∈ post, z.2 ≤ y.2)) := by
  induction ys generalizing b with
  | nil => exact Or.inl ⟨rfl, by simp⟩
  | cons y ys ih =>
    by_cases hlt : b.2 < y.2
    · have hstep : (y :: ys).foldl (fun b y => if b.2 < y.2 then y else b) b
          = ys.foldl (fun b y => if b.2 < y.2 then y else b) y := by
        simp [List.foldl_cons, if_pos hlt]
      rcases ih y with ⟨heq, hall⟩ | ⟨pre, z, post, hsplit, heq, hbz, hpre, hpost⟩
      · exact Or.inr ⟨[], y, ys, by simp, by rw [hstep, heq], hlt, by simp, hall⟩
      · refine Or.inr ⟨y :: pre, z, post, by rw [hsplit, List.cons_append], by rw [hstep, heq],
          lt_trans hlt hbz, ?_, hpost⟩
        intro w hw
        rcases List.mem_cons.mp hw with h | h
        · subst h; exact hbz
        · exact hpre w h
    · have hstep : (y :: ys).foldl (fun b y => if b.2 < y.2 then y else b) b
          = ys.foldl (fun b y => if b.2 < y.2 then y else b) b := by
        simp [List.foldl_cons, if_neg hlt]
      rcases ih b with ⟨heq, hall⟩ | ⟨pre, z, post, hsplit, heq, hbz, hpre, hpost⟩
      · refine Or.inl ⟨by rw [hstep, heq], ?_⟩
        intro w hw
        rcases List.mem_cons.mp hw with h | h
        · subst h; exact le_of_not_lt hlt
        · exact hall w h
      · refine Or.inr ⟨y :: pre, z, post, by rw [hsplit, List.cons_append], by rw [hstep, heq], hbz, ?_, hpost⟩
        intro w hw
        rcases List.mem_cons.mp hw with h | h
        · subst h; exact lt_of_le_of_lt (le_of_not_lt hlt) hbz
        · exact hpre w h

theorem pyMax_split {α : Type} [LinearOrder α] (l : List (ℕ × α)) (m : ℕ × α)
    (h : pyMax l = some m) :
    ∃ pre post, l = pre ++ m :: post ∧ (∀ z ∈ pre, z.2 < m.2) ∧ ∀ z ∈ l, z.2 ≤ m.2 := by
  cases l with
  | nil => cases h
  | cons x xs =>
    have hm : xs.foldl (fun b y => if b.2 < y.2 then y else b) x = m := by
      simpa [pyMax] using h
    rcases pyFold_split xs x with ⟨heq, hall⟩ | ⟨pre, z, post, hsplit, heq, hxz, hpre, hpost⟩
    · rw [heq] at hm
      subst hm
      refine ⟨[], xs, by simp, by simp, ?_⟩
      intro w hw
      rcases List.mem_cons.mp hw with h | h
      · subst h; exact le_refl _
      · exact hall w h
    · rw [heq] at hm
      subst hm
      refine ⟨x :: pre, post, by rw [hsplit, List.cons_append], ?_, ?_⟩
      · intro w hw
        rcases List.mem_cons.mp hw with h | h
        · subst h; exact hxz
        · exact hpre w h
      · intro w hw
        rcases List.mem_cons.mp hw with h | h
        · subst h; exact le_of_lt hxz
        · rw [hsplit] at h
          rcases List.mem_append.mp h with h | h
          · exact le_of_lt (hpre w h)
          · rcases List.mem_cons.mp h with h | h
            · subst h; exact le_refl _
            · exact hpost w h

theorem pyMax_mem {α : Type} [LinearOrder α] (l : List (ℕ × α)) (m : ℕ × α)
    (h : pyMax l = some m) : m ∈ l := by
  obtain ⟨pre, post, hsplit, -, -⟩ := pyMax_split l m h
  rw [hsplit]
  exact List.mem_append_right _ (List.mem_cons_self _ _)

/-! Helper lemmas for the unjoined-cell resolution (C1, C6). -/

theorem firstDedupAux_subset (seen l : List ℕ) : ∀ a ∈ firstDedupAux seen l, a ∈ l := by
  induction l generalizing seen with
  | nil => simp [firstDedupAux]
  | cons x l ih =>
    intro a ha
    rw [firstDedupAux] at ha
    by_cases hx : x ∈ seen
    · rw [if_pos hx] at ha
      exact List.mem_cons_of_mem _ (ih seen a ha)
    · rw [if_neg hx] at ha
      rcases List.mem_cons.mp ha with h | h
      · subst h; exact List.mem_cons_self _ _
      · exact List.mem_cons_of_mem _ (ih _ a h)

theorem neighborsIds_mem {G : Type} (rows : List (Option ℕ × G)) (ns : List ℕ) (u : ℕ)
    (h : u ∈ neighborsIds rows ns) : u ∈ rows.filterMap Prod.fst := by
  obtain ⟨n, _hn, hbind⟩ := List.mem_filterMap.mp h
  cases hr : rows.get? n with
  | none => rw [hr] at hbind; cases hbind
  | some r =>
    rw [hr] at hbind
    have hmem : r ∈ rows := List.get?_mem hr
    exact List.mem_filterMap.mpr ⟨r, hmem, hbind⟩

theorem resolveCell_uid_subset {G α : Type} [LinearOrderedAddCommMonoid α]
    (Q : G → List ℕ) (il : G → G → α)
    (rows : List (Option ℕ × G)) (idx : ℕ) (rows' : List (Option ℕ × G))
    (h : resolveCell Q il rows idx = some rows') :
    ∀ u, u ∈ rows'.filterMap Prod.fst → u ∈ rows.filterMap Prod.fst := by
  obtain ⟨r, hr, h2⟩ := Option.bind_eq_some.mp h
  obtain ⟨kv, hm, hset⟩ := Option.map_eq_some'.mp h2
  have hk : kv.1 ∈ rows.filterMap Prod.fst := by
    have hkvmem : kv ∈ boundariesDict Q il rows r.2 := pyMax_mem _ _ hm
    obtain ⟨i, hi, hkv⟩ := List.mem_map.mp hkvmem
    have hki : kv.1 = i := by rw [← hkv]
    rw [hki]
    exact neighborsIds_mem _ _ _ (firstDedupAux_subset _ _ i hi)
  intro u hu
  rw [← hset] at hu
  obtain ⟨x, hx, hxu⟩ := List.mem_filterMap.mp hu
  rcases List.mem_or_eq_of_mem_set hx with hmem | heq
  · exact List.mem_filterMap.mpr ⟨x, hmem, hxu⟩
  · rw [heq] at hxu
    have : some kv.1 = some u := hxu
    rw [← Option.some_inj.mp this]
    exact hk

theorem resolveFold_uid_subset {G α : Type} [LinearOrderedAddCommMonoid α]
    (Q : G → List ℕ) (il : G → G → α) (idxs : List ℕ) :
    ∀ (rows rows' : List (Option ℕ × G)),
      idxs.foldlM (resolveCell Q il) rows = some rows' →
      ∀ u, u ∈ rows'.filterMap Prod.fst → u ∈ rows.filterMap Prod.fst := by
  induction idxs with
  | nil =>
    intro rows rows' h u hu
    simp only [List.foldlM_nil] at h
    have : rows = rows' := Option.some_inj.mp h
    rw [this]
    exact hu
  | cons i t ih =>
    intro rows rows' h u hu
    rw [List.foldlM_cons] at h
    obtain ⟨rows1, h1, h2⟩ := Option.bind_eq_some.mp h
    exact resolveCell_uid_subset Q il rows i rows1 h1 u (ih rows1 rows' h2 u hu)

theorem sjoinLeft_uid_subset {G : Type} (ib : G → G → Bool) (objs : List (ℕ × G))
    (polys : List G) (u : ℕ) (h : u ∈ (sjoinLeft ib objs polys).filterMap Prod.fst) :
    u ∈ objs.map Prod.fst := by
  obtain ⟨x, hx, hxu⟩ := List.mem_filterMap.mp h
  obtain ⟨p, _hp, hxp⟩ := List.mem_flatMap.mp hx
  by_cases he : (objs.filter (fun o => ib o.2 p)).isEmpty
  · rw [if_pos he] at hxp
    have hx' : x = (none, p) := List.mem_singleton.mp hxp
    rw [hx'] at hxu
    cases hxu
  · rw [if_neg he] at hxp
    obtain ⟨o, ho, hox⟩ := List.mem_map.mp hxp
    have hou : o.1 = u := by
      rw [← hox] at hxu
      exact Option.some_inj.mp hxu
    rw [← hou]
    exact List.mem_map.mpr ⟨o, List.mem_of_mem_filter ho, rfl⟩

/-- C1: after the spatial join, the unjoined-cell resolution and the dissolve
by uID, the set of uID values on the output cells is a subset of the input
buildings' uID values, no uID appears on more than one output cell (exactly
one cell per assigned building), and a uID appears on an output cell exactly
when some Voronoi row carries it. -/
theorem tessellation_uid_partition {G α : Type} [LinearOrderedAddCommMonoid α]
    (ib : G → G → Bool) (Q : G → List ℕ)
    (il : G → G → α) (objs : List (ℕ × G)) (polys : List G)
    (rows' : List (Option ℕ × G))
    (h : resolveAll Q il (sjoinLeft ib objs polys) = some rows') :
    (dissolvedUIDs rows').Nodup ∧
    (∀ u ∈ dissolvedUIDs rows', u ∈ objs.map Prod.fst) ∧
    (∀ u, u ∈ dissolvedUIDs rows' ↔ u ∈ rows'.filterMap Prod.fst) := by
  refine ⟨List.nodup_dedup _, ?_, fun u => List.mem_dedup⟩
  intro u hu
  have hu' : u ∈ rows'.filterMap Prod.fst := List.mem_dedup.mp hu
  have h2 := resolveFold_uid_subset Q il (unjoinedIdxs (sjoinLeft ib objs polys)) _ _ h u hu'
  exact sjoinLeft_uid_subset ib objs polys u h2

theorem tessellation_uid_partition_witness :
    resolveAll (fun _ => [0, 1, 2]) (fun _ _ => (1 : ℤ))
        (sjoinLeft (fun a b => a == b) [(1, (10 : ℕ)), (2, 20)] [10, 20, 30])
      = some [(some 1, 10), (some 2, 20), (some 1, 30)] ∧
    (dissolvedUIDs [(some 1, (10 : ℕ)), (some 2, 20), (some 1, 30)]).Nodup :=
  ⟨by decide,
    (tessellation_uid_partition (fun a b => a == b) (fun _ => [0, 1, 2]) (fun _ _ => (1 : ℤ))
      [(1, (10 : ℕ)), (2, 20)] [10, 20, 30]
      [(some 1, 10), (some 2, 20), (some 1, 30)] (by decide)).1⟩

/-- C6 (counterexample): with two neighbouring buildings tying on total
shared-boundary length and returned by the spatial index in the order
`[uID 5, uID 3]`, the resolution assigns the unjoined cell uID 5 — the first
key of the boundaries dict in insertion order — while the tie-break stated by
the claim (the smallest building identifier) would assign uID 3. -/
theorem unjoined_tiebreak_counterexample :
    resolveCell (fun _ => [0, 1]) (fun _ _ => (1 : ℤ))
        [(some 5, (0 : ℕ)), (some 3, 1), (none, 2)] 2
      = some [(some 5, 0), (some 3, 1), (some 5, 2)] ∧
    boundariesDict (fun _ => [0, 1]) (fun _ _ => (1 : ℤ))
        [(some 5, (0 : ℕ)), (some 3, 1), (none, 2)] 2 = [(5, 1), (3, 1)] ∧
    specTiePick (boundariesDict (fun _ => [0, 1]) (fun _ _ => (1 : ℤ))
        [(some 5, (0 : ℕ)), (some 3, 1), (none, 2)] 2) = some 3 := by
  decide

/-- C6 (amended): every unjoined Voronoi cell is assigned the neighbour uID
attaining the maximum total shared-boundary length with the cell, but a tie on
that maximum is broken by the first such uID in the spatial-index iteration
(dict insertion) order — all earlier dict entries have strictly smaller
length — not by the smallest building identifier. -/
theorem unjoined_resolution_amended {G α : Type} [LinearOrderedAddCommMonoid α]
    (Q : G → List ℕ) (il : G → G → α)
    (rows : List (Option ℕ × G)) (idx : ℕ) (r : Option ℕ × G) (kv : ℕ × α)
    (hr : rows.get? idx = some r)
    (hmax : pyMax (boundariesDict Q il rows r.2) = some kv) :
    resolveCell Q il rows idx = some (rows.set idx (some kv.1, r.2)) ∧
    kv.1 ∈ neighborsIds rows (Q r.2) ∧
    kv.2 = boundaryLen il rows r.2 kv.1 ∧
    (∀ z ∈ boundariesDict Q il rows r.2, z.2 ≤ kv.2) ∧
    ∃ pre post, boundariesDict Q il rows r.2 = pre ++ kv :: post ∧
      ∀ z ∈ pre, z.2 < kv.2 := by
  obtain ⟨pre, post, hsplit, hpre, hall⟩ := pyMax_split _ _ hmax
  have hkvmem : kv ∈ boundariesDict Q il rows r.2 := pyMax_mem _ _ hmax
  obtain ⟨i, hi, hkv⟩ := List.mem_map.mp hkvmem
  refine ⟨by rw [resolveCell, hr, Option.some_bind, hmax, Option.map_some'], ?_, ?_,
    hall, pre, post, hsplit, hpre⟩
  · have hki : kv.1 = i := by rw [← hkv]
    rw [hki]
    exact firstDedupAux_subset _ _ i hi
  · have : kv.2 = boundaryLen il rows r.2 i := by rw [← hkv]
    have hki : kv.1 = i := by rw [← hkv]
    rw [this, hki]

theorem unjoined_resolution_amended_witness :
    resolveCell (fun _ => [0, 1]) (fun _ _ => (1 : ℤ))
        [(some 5, (0 : ℕ)), (some 3, 1), (none, 2)] 2
      = some ([(some 5, (0 : ℕ)), (some 3, 1), (none, 2)].set 2 (some 5, 2)) :=
  (unjoined_resolution_amended (fun _ => [0, 1]) (fun _ _ => (1 : ℤ))
    [(some 5, (0 : ℕ)), (some 3, 1), (none, 2)] 2 (none, 2) (5, 1)
    (by decide) (by decide)).1

/-- C7: in the clipping step of `tessellation()`, a cell's geometry is replaced
by its intersection with the study area, and when that intersection is a
multi-part polygon exactly one part is kept — a part of maximal area — and all
other parts are discarded. -/
theorem quadrat_cut_largest_part {α : Type} [LinearOrder α] [Zero α]
    (p : PPoly α) (parts : List (PPoly α)) (hne : parts ≠ []) :
    cutCell (PyGeomC.polygon p) = some p ∧
    ∃ kept, cutCell (PyGeomC.multiPolygon parts) = some kept ∧ kept ∈ parts ∧
      ∀ q ∈ parts, q.1 ≤ kept.1 := by
  refine ⟨rfl, ?_⟩
  have hpa : partAreas parts ≠ [] := by
    intro hnil
    apply hne
    have : parts.length = 0 := by
      by_contra hlen
      have : (0, (parts.getD 0 (0, 0)).1) ∈ partAreas parts := by
        refine List.mem_map.mpr ⟨0, List.mem_range.mpr (Nat.pos_of_ne_zero hlen), rfl⟩
      rw [hnil] at this
      cases this
    exact List.length_eq_zero.mp this
  obtain ⟨y, ys, hys⟩ := List.exists_cons_of_ne_nil hpa
  have hpm : ∃ m, pyMax (partAreas parts) = some m := ⟨_, by rw [hys]; rfl⟩
  obtain ⟨m, hm⟩ := hpm
  obtain ⟨pre, post, hsplit, hpre, hmax⟩ := pyMax_split _ _ hm
  obtain ⟨i, hi, him⟩ := List.mem_map.mp (pyMax_mem _ _ hm)
  have hilen : i < parts.length := List.mem_range.mp hi
  have hm1 : m.1 = i := by rw [← him]
  have hget : parts.get? i = some (parts.get ⟨i, hilen⟩) := List.get?_eq_get hilen
  refine ⟨parts.get ⟨i, hilen⟩, ?_, List.get_mem _ _ _, ?_⟩
  · rw [cutCell, hm, Option.some_bind, hm1, hget]
  · intro q hq
    obtain ⟨⟨j, hj⟩, hjq⟩ := List.mem_iff_get.mp hq
    have hqa : (j, q.1) ∈ partAreas parts := by
      refine List.mem_map.mpr ⟨j, List.mem_range.mpr hj, ?_⟩
      rw [List.getD_eq_get?, List.get?_eq_get hj, hjq]
      rfl
    have hle : q.1 ≤ m.2 := hmax (j, q.1) hqa
    have hm2 : m.2 = (parts.get ⟨i, hilen⟩).1 := by
      rw [← him]
      simp only
      rw [List.getD_eq_get?, List.get?_eq_get hilen]
      rfl
    rw [hm2] at hle
    exact hle

theorem quadrat_cut_largest_part_witness :
    cutCell (PyGeomC.multiPolygon [((1 : ℤ), 0), (3, 1), (2, 2)]) = some ((3 : ℤ), 1) ∧
    cutCell (PyGeomC.polygon ((4 : ℤ), 9)) = some ((4 : ℤ), 9) :=
  ⟨by decide,
    (quadrat_cut_largest_part ((4 : ℤ), 9) [((1 : ℤ), 0), (3, 1), (2, 2)] (by decide)).1⟩

/-! Helper lemmas for the nearest-street scan of street_edges (C8, C9, C10). -/

theorem stepSol_fold_spec (p : Pt) (hs : List StItem) :
    ∀ acc : ℚ × Option StItem,
      (hs.foldl (stepSol p) acc).1 ≤ acc.1 ∧
      (∀ h ∈ hs, (hs.foldl (stepSol p) acc).1 ≤ distOf p h) ∧
      ((hs.foldl (stepSol p) acc = acc ∧ ∀ h ∈ hs, acc.1 < distOf p h) ∨
       (∃ it ∈ hs, (hs.foldl (stepSol p) acc).2 = some it ∧
         (hs.foldl (stepSol p) acc).1 = distOf p it)) := by
  induction hs with
  | nil =>
    intro acc
    exact ⟨le_refl _, by simp, Or.inl ⟨rfl, by simp⟩⟩
  | cons h t ih =>
    intro acc
    by_cases hc : acc.1 ≥ distOf p h
    · have hstep : (h :: t).foldl (stepSol p) acc = t.foldl (stepSol p) (distOf p h, some h) := by
        simp only [List.foldl_cons, stepSol, if_pos hc]
      obtain ⟨ih1, ih2, ih3⟩ := ih (distOf p h, some h)
      refine ⟨by rw [hstep]; exact le_trans ih1 hc, ?_, ?_⟩
      · intro w hw
        rcases List.mem_cons.mp hw with hh | hh
        · subst hh; rw [hstep]; exact ih1
        · rw [hstep]; exact ih2 w hh
      · rcases ih3 with ⟨heq, -⟩ | ⟨it, hit, hsome, hdist⟩
        · refine Or.inr ⟨h, List.mem_cons_self _ _, ?_, ?_⟩
          · rw [hstep, heq]
          · rw [hstep, heq]
        · exact Or.inr ⟨it, List.mem_cons_of_mem _ hit,
            by rw [hstep]; exact hsome, by rw [hstep]; exact hdist⟩
    · have hlt : acc.1 < distOf p h := lt_of_not_le hc
      have hstep : (h :: t).foldl (stepSol p) acc = t.foldl (stepSol p) acc := by
        simp only [List.foldl_cons, stepSol, if_neg hc]
      obtain ⟨ih1, ih2, ih3⟩ := ih acc
      refine ⟨by rw [hstep]; exact ih1, ?_, ?_⟩
      · intro w hw
        rcases List.mem_cons.mp hw with hh | hh
        · subst hh; rw [hstep]; exact le_trans ih1 (le_of_lt hlt)
        · rw [hstep]; exact ih2 w hh
      · rcases ih3 with ⟨heq, hall⟩ | ⟨it, hit, hsome, hdist⟩
        · refine Or.inl ⟨by rw [hstep]; exact heq, ?_⟩
          intro w hw
          rcases List.mem_cons.mp hw with hh | hh
          · subst hh; exact hlt
          · exact hall w hh
        · exact Or.inr ⟨it, List.mem_cons_of_mem _ hit,
            by rw [hstep]; exact hsome, by rw [hstep]; exact hdist⟩

theorem scanPure_spec (p : Pt) (hs : List StItem) :
    (scanPure p hs).1 ≤ INFTY2 ∧
    (∀ h ∈ hs, (scanPure p hs).1 ≤ distOf p h) ∧
    ((scanPure p hs).2 = none → ∀ h ∈ hs, INFTY2 < distOf p h) ∧
    (∀ it, (scanPure p hs).2 = some it → it ∈ hs ∧ (scanPure p hs).1 = distOf p it) := by
  obtain ⟨h1, h2, h3⟩ := stepSol_fold_spec p hs (INFTY2, none)
  refine ⟨h1, h2, ?_, ?_⟩
  · intro hnone
    rcases h3 with ⟨-, hall⟩ | ⟨it, -, hsome, -⟩
    · exact hall
    · rw [show (hs.foldl (stepSol p) (INFTY2, none)).2 = (scanPure p hs).2 from rfl, hnone] at hsome
      cases hsome
  · intro it hsome
    rcases h3 with ⟨heq, -⟩ | ⟨it', hit', hsome', hdist'⟩
    · rw [show (scanPure p hs).2 = (hs.foldl (stepSol p) (INFTY2, none)).2 from rfl, heq] at hsome
      cases hsome
    · have hii : it' = it := by
        rw [show (hs.foldl (stepSol p) (INFTY2, none)).2 = (scanPure p hs).2 from rfl, hsome]
          at hsome'
        exact (Option.some_inj.mp hsome').symm
      rw [← hii]
      exact ⟨hit', hdist'⟩

theorem scanHits_eq_pure (p : Pt) :
    ∀ (hs : List StItem), (∀ h ∈ hs, (get_distance p h.2.1).isSome = true) →
      ∀ acc : ℚ × Option StItem,
        hs.foldlM (fun acc h => (get_distance p h.2.1).map
          (fun r => if acc.1 ≥ r.2 then (r.2, some h) else acc)) acc
          = some (hs.foldl (stepSol p) acc) := by
  intro hs
  induction hs with
  | nil => intro _ acc; simp
  | cons h t ih =>
    intro hall acc
    obtain ⟨r, hr⟩ := Option.isSome_iff_exists.mp (hall h (List.mem_cons_self _ _))
    have hdist : distOf p h = r.2 := by simp [distOf, hr]
    rw [List.foldlM_cons, hr]
    have hstep : stepSol p acc h = if acc.1 ≥ r.2 then (r.2, some h) else acc := by
      rw [stepSol, hdist]
    simp only [Option.map_some', Option.some_bind]
    rw [List.foldl_cons, hstep]
    exact ih (fun w hw => hall w (List.mem_cons_of_mem _ hw)) _

theorem scanHits_some (p : Pt) (hs : List StItem)
    (hall : ∀ h ∈ hs, (get_distance p h.2.1).isSome = true) :
    scanHits p hs = some (scanPure p hs) :=
  scanHits_eq_pure p hs hall (INFTY2, none)

theorem boxOverlap_pointBox_mono (bx : Box) (p : Pt) (s1 s2 : ℚ) (hle : s1 ≤ s2)
    (h : boxOverlap bx (pointBox p s1) = true) : boxOverlap bx (pointBox p s2) = true := by
  have h' := of_decide_eq_true h
  apply decide_eq_true
  simp only [pointBox] at h' ⊢
  obtain ⟨o1, o2, o3, o4⟩ := h'
  exact ⟨by linarith, by linarith, by linarith, by linarith⟩

theorem hitsIn_mono (segs : List StItem) (p : Pt) (s1 s2 : ℚ) (hle : s1 ≤ s2) :
    ∀ h ∈ hitsIn segs p s1, h ∈ hitsIn segs p s2 := by
  intro h hh
  obtain ⟨hmem, hov⟩ := List.mem_filter.mp hh
  exact List.mem_filter.mpr ⟨hmem, boxOverlap_pointBox_mono _ p s1 s2 hle hov⟩

/-- C8: for a fixed set of street sub-segments and a fixed centroid, the
nearest-street distance found by get_solution is monotone non-increasing in
MIN_SIZE: enlarging the query half-width from `s1` to `s2` keeps the scan
assigned (it does not fall back to the sentinel) and the distance of the
assigned nearest sub-segment cannot increase. -/
theorem nearest_street_monotone (segs : List StItem) (p : Pt) (s1 s2 d1 : ℚ) (it1 : StItem)
    (hle : s1 ≤ s2)
    (hall : ∀ h ∈ hitsIn segs p s2, (get_distance p h.2.1).isSome = true)
    (h1 : scanHits p (hitsIn segs p s1) = some (d1, some it1)) :
    scanHits p (hitsIn segs p s2) = some (scanPure p (hitsIn segs p s2)) ∧
    (scanPure p (hitsIn segs p s2)).2 ≠ none ∧
    (scanPure p (hitsIn segs p s2)).1 ≤ d1 := by
  have hsub := hitsIn_mono segs p s1 s2 hle
  have hall1 : ∀ h ∈ hitsIn segs p s1, (get_distance p h.2.1).isSome = true :=
    fun h hh => hall h (hsub h hh)
  have hp1 : scanPure p (hitsIn segs p s1) = (d1, some it1) := by
    have := scanHits_some p _ hall1
    rw [h1] at this
    exact (Option.some_inj.mp this).symm
  obtain ⟨hub1, -, -, hsome1⟩ := scanPure_spec p (hitsIn segs p s1)
  obtain ⟨-, hbound2, hnone2, -⟩ := scanPure_spec p (hitsIn segs p s2)
  have hit1 : it1 ∈ hitsIn segs p s1 ∧ (scanPure p (hitsIn segs p s1)).1 = distOf p it1 :=
    hsome1 it1 (by rw [hp1])
  have hd1 : d1 = distOf p it1 := by
    rw [hp1] at hit1
    exact hit1.2
  have hd1le : d1 ≤ INFTY2 := by
    rw [hp1] at hub1
    exact hub1
  have hit1in2 : it1 ∈ hitsIn segs p s2 := hsub it1 hit1.1
  refine ⟨scanHits_some p _ hall, ?_, ?_⟩
  · intro hnone
    have := hnone2 hnone it1 hit1in2
    rw [← hd1] at this
    exact absurd hd1le (not_le_of_lt this)
  · rw [hd1]
    exact hbound2 it1 hit1in2

/-- C9: a centroid for which no street sub-segment's bounding box intersects
the fixed query box of side `2 * MIN_SIZE` is assigned the sentinel
"unassigned" entry rather than a real street name and network identifier. -/
theorem nearest_street_sentinel (segs : List StItem) (p : Pt) (size : ℚ)
    (h : ∀ it ∈ segs, boxOverlap (segBox it.2.1) (pointBox p size) = false) :
    get_solution_point segs size p = some SolEntry.sentinel := by
  have hnil : hitsIn segs p size = [] := by
    rw [hitsIn, List.filter_eq_nil]
    intro it hit
    simp [h it hit]
  rw [get_solution_point, hnil]
  rfl

/-- C10: the point-to-segment projection get_distance is undefined (it divides
by the squared segment length zero) exactly when the segment is degenerate;
for a non-degenerate segment it always returns a point on the segment together
with its (squared) distance, and the projection is clamped to an endpoint
whenever the parameter t falls outside (0, 1). -/
theorem get_distance_spec (a b c : Pt) :
    (b = c → get_distance a (b, c) = none) ∧
    (b ≠ c → (get_distance a (b, c)).isSome = true ∧
      ∀ pt d, get_distance a (b, c) = some (pt, d) →
        d = distance_sq a pt ∧
        (∃ t : ℚ, 0 ≤ t ∧ t ≤ 1 ∧ pt = (b.1 + t * (c.1 - b.1), b.2 + t * (c.2 - b.2))) ∧
        (tParam a (b, c) ≤ 0 → pt = b) ∧
        (1 ≤ tParam a (b, c) → pt = c)) := by
  constructor
  · intro hbc
    subst hbc
    rw [get_distance, if_pos (by ring)]
  · intro hbc
    have hden : ¬ ((b, c).2.1 - (b, c).1.1) ^ 2 + ((b, c).2.2 - (b, c).1.2) ^ 2 = 0 := by
      intro hzero
      apply hbc
      have h1 : (c.1 - b.1) ^ 2 = 0 := by nlinarith [sq_nonneg (c.1 - b.1), sq_nonneg (c.2 - b.2)]
      have h2 : (c.2 - b.2) ^ 2 = 0 := by nlinarith [sq_nonneg (c.1 - b.1), sq_nonneg (c.2 - b.2)]
      have e1 : c.1 = b.1 := by
        have := pow_eq_zero_iff (n := 2) (by norm_num) |>.mp h1
        linarith [this]
      have e2 : c.2 = b.2 := by
        have := pow_eq_zero_iff (n := 2) (by norm_num) |>.mp h2
        linarith [this]
      exact Prod.ext e1.symm e2.symm
    by_cases hint : 0 < tParam a (b, c) ∧ tParam a (b, c) < 1
    · rw [get_distance, if_neg hden, if_pos hint]
      refine ⟨rfl, ?_⟩
      intro pt d heq
      have h2 := Option.some_inj.mp heq
      have hpt : pt = (tParam a (b, c) * ((b, c).2.1 - (b, c).1.1) + (b, c).1.1,
          tParam a (b, c) * ((b, c).2.2 - (b, c).1.2) + (b, c).1.2) := (congrArg Prod.fst h2).symm
      have hd : d = distance_sq a (tParam a (b, c) * ((b, c).2.1 - (b, c).1.1) + (b, c).1.1,
          tParam a (b, c) * ((b, c).2.2 - (b, c).1.2) + (b, c).1.2) := (congrArg Prod.snd h2).symm
      refine ⟨by rw [hd, hpt], ⟨tParam a (b, c), le_of_lt hint.1, le_of_lt hint.2, ?_⟩, ?_, ?_⟩
      · rw [hpt]
        exact Prod.ext (by ring) (by ring)
      · intro hle
        exact absurd hint.1 (not_lt_of_le hle)
      · intro hge
        exact absurd hint.2 (not_lt_of_le hge)
    · by_cases hneg : tParam a (b, c) ≤ 0
      · rw [get_distance, if_neg hden, if_neg hint, if_pos hneg]
        refine ⟨rfl, ?_⟩
        intro pt d heq
        have hin := Option.some_inj.mp heq
        have hpt : pt = b := (congrArg Prod.fst hin).symm
        have hd : d = distance_sq a b := (congrArg Prod.snd hin).symm
        refine ⟨by rw [hd, hpt], ⟨0, le_refl _, by norm_num, ?_⟩, fun _ => hpt, ?_⟩
        · rw [hpt]
          exact Prod.ext (by ring) (by ring)
        · intro hge
          linarith
      · have hge : 1 ≤ tParam a (b, c) := by
          rcases not_and_or.mp hint with hn | hn
          · exact absurd (lt_of_not_le hneg) hn
          · exact le_of_not_lt hn
        rw [get_distance, if_neg hden, if_neg hint, if_neg hneg]
        refine ⟨rfl, ?_⟩
        intro pt d heq
        have hin := Option.some_inj.mp heq
        have hpt : pt = c := (congrArg Prod.fst hin).symm
        have hd : d = distance_sq a c := (congrArg Prod.snd hin).symm
        refine ⟨by rw [hd, hpt], ⟨1, by norm_num, le_refl _, ?_⟩, ?_, fun _ => hpt⟩
        · rw [hpt]
          exact Prod.ext (by ring) (by ring)
        · intro hle
          linarith

theorem hitsIn_example20 :
    hitsIn [((0 : ℕ), (((0 : ℚ), 0), (4, 0)), (7 : ℕ))] ((0 : ℚ), 3) 20
      = [((0 : ℕ), (((0 : ℚ), 0), (4, 0)), (7 : ℕ))] := by
  simp only [hitsIn, List.filter, boxOverlap, segBox, pointBox]
  norm_num [min_def, max_def]

theorem hitsIn_example10 :
    hitsIn [((0 : ℕ), (((0 : ℚ), 0), (4, 0)), (7 : ℕ))] ((0 : ℚ), 3) 10
      = [((0 : ℕ), (((0 : ℚ), 0), (4, 0)), (7 : ℕ))] := by
  simp only [hitsIn, List.filter, boxOverlap, segBox, pointBox]
  norm_num [min_def, max_def]

theorem get_distance_example :
    get_distance ((0 : ℚ), 3) (((0 : ℚ), 0), (4, 0)) = some (((0 : ℚ), 0), 9) := by
  rw [get_distance]
  rw [if_neg (by norm_num), if_neg (by rw [tParam]; norm_num), if_pos (by rw [tParam]; norm_num)]
  norm_num [distance_sq]

theorem scanHits_example10 :
    scanHits ((0 : ℚ), 3) (hitsIn [((0 : ℕ), (((0 : ℚ), 0), (4, 0)), (7 : ℕ))] ((0 : ℚ), 3) 10)
      = some (9, some ((0 : ℕ), (((0 : ℚ), 0), (4, 0)), (7 : ℕ))) := by
  rw [hitsIn_example10, scanHits, List.foldlM_cons, get_distance_example]
  simp only [Option.map_some', Option.some_bind, List.foldlM_nil]
  rw [if_pos (by rw [INFTY2]; norm_num)]
  rfl

theorem nearest_street_monotone_witness :
    scanHits ((0 : ℚ), 3)
        (hitsIn [((0 : ℕ), (((0 : ℚ), 0), (4, 0)), (7 : ℕ))] ((0 : ℚ), 3) 20)
      = some (scanPure ((0 : ℚ), 3)
        (hitsIn [((0 : ℕ), (((0 : ℚ), 0), (4, 0)), (7 : ℕ))] ((0 : ℚ), 3) 20)) ∧
    (scanPure ((0 : ℚ), 3)
        (hitsIn [((0 : ℕ), (((0 : ℚ), 0), (4, 0)), (7 : ℕ))] ((0 : ℚ), 3) 20)).2 ≠ none ∧
    (scanPure ((0 : ℚ), 3)
        (hitsIn [((0 : ℕ), (((0 : ℚ), 0), (4, 0)), (7 : ℕ))] ((0 : ℚ), 3) 20)).1 ≤ 9 :=
  nearest_street_monotone [((0 : ℕ), (((0 : ℚ), 0), (4, 0)), (7 : ℕ))] ((0 : ℚ), 3) 10 20 9
    ((0 : ℕ), (((0 : ℚ), 0), (4, 0)), (7 : ℕ)) (by norm_num)
    (by
      intro h hh
      rw [hitsIn_example20, List.mem_singleton] at hh
      subst hh
      rw [get_distance_example]
      rfl)
    scanHits_example10

theorem nearest_street_sentinel_witness :
    get_solution_point [(0, (((1000 : ℚ), 1000), (1001, 1000)), 7)] 100 ((0 : ℚ), 0)
      = some SolEntry.sentinel := by
  apply nearest_street_sentinel
  intro it hit
  rw [List.mem_singleton] at hit
  subst hit
  simp only [boxOverlap, segBox, pointBox]
  rw [decide_eq_false_iff_not]
  intro hcon
  obtain ⟨o1, -, -, -⟩ := hcon
  simp only [min_def] at o1
  norm_num at o1

theorem get_distance_spec_witness :
    get_distance ((0 : ℚ), 0) (((1 : ℚ), 1), (1, 1)) = none ∧
    (get_distance ((0 : ℚ), 0) (((3 : ℚ), 0), (3, 4))).isSome = true :=
  ⟨(get_distance_spec ((0 : ℚ), 0) (1, 1) (1, 1)).1 rfl,
   ((get_distance_spec ((0 : ℚ), 0) (3, 0) (3, 4)).2 (by decide)).1⟩

/-! The extrapolation of snap_street_network_edge, over ℝ (C2, C3). -/

theorem sqrt_trig_len (tol θ x y : ℝ) (htol : 0 ≤ tol)
    (hx : x ^ 2 + y ^ 2 = (tol * Real.cos θ) ^ 2 + (tol * Real.sin θ) ^ 2) :
    Real.sqrt (x ^ 2 + y ^ 2) = tol := by
  have h2 : (tol * Real.cos θ) ^ 2 + (tol * Real.sin θ) ^ 2 = tol ^ 2 := by
    have hs := Real.sin_sq_add_cos_sq θ
    have hr : (tol * Real.cos θ) ^ 2 + (tol * Real.sin θ) ^ 2
        = tol ^ 2 * (Real.sin θ ^ 2 + Real.cos θ ^ 2) := by ring
    rw [hr, hs, mul_one]
  rw [hx, h2, Real.sqrt_sq htol]

/-- C2 (amended): whenever the fudged denominator is nonzero and the tolerance
is nonnegative, the extrapolation returns a segment whose first endpoint is
exactly `p2` and whose length is exactly `tol`; the direction, however, is the
one given by the perturbed angle `extrapolAngle` and is not collinear with
`p1 → p2` in general (see the counterexample). -/
theorem extrapolation_amended (p1 p2 : ℝ × ℝ) (tol : ℝ)
    (hden : p1.1 - p2.1 + 1 / 1000000 ≠ 0) (htol : 0 ≤ tol) :
    getExtrapoledLine p1 p2 tol = some (p2, extrapolTarget p1 p2 tol) ∧
    Real.sqrt (((extrapolTarget p1 p2 tol).1 - p2.1) ^ 2 +
      ((extrapolTarget p1 p2 tol).2 - p2.2) ^ 2) = tol := by
  constructor
  · rw [getExtrapoledLine, if_neg (by simpa [abs_eq_zero] using hden)]
  · rw [extrapolTarget]
    split_ifs <;>
      exact sqrt_trig_len tol (extrapolAngle p1 p2) _ _ htol (by dsimp only; ring)

theorem extrapolation_amended_witness :
    getExtrapoledLine ((0 : ℝ), (0 : ℝ)) ((1 : ℝ), (0 : ℝ)) 1
      = some (((1 : ℝ), (0 : ℝ)), extrapolTarget ((0 : ℝ), (0 : ℝ)) ((1 : ℝ), (0 : ℝ)) 1) :=
  (extrapolation_amended ((0 : ℝ), (0 : ℝ)) ((1 : ℝ), (0 : ℝ)) 1 (by norm_num) (by norm_num)).1

theorem extrapolAngle_horizontal :
    extrapolAngle ((0 : ℝ), (0 : ℝ)) ((1 : ℝ), (0 : ℝ)) = Real.arctan (1 / 999999) := by
  rw [extrapolAngle]
  have e1 : ((0 : ℝ), (0 : ℝ)).2 - ((1 : ℝ), (0 : ℝ)).2 + 1 / 1000000 = 1 / 1000000 := by
    norm_num
  have e2 : ((0 : ℝ), (0 : ℝ)).1 - ((1 : ℝ), (0 : ℝ)).1 + 1 / 1000000 = -(999999 / 1000000) := by
    norm_num
  rw [e1, e2, abs_neg, abs_of_pos (by norm_num : (0 : ℝ) < 1 / 1000000),
    abs_of_pos (by norm_num : (0 : ℝ) < 999999 / 1000000)]
  norm_num

theorem getExtrapoledLine_horizontal :
    getExtrapoledLine ((0 : ℝ), (0 : ℝ)) ((1 : ℝ), (0 : ℝ)) 1
      = some (((1 : ℝ), (0 : ℝ)),
          (1 + Real.cos (Real.arctan (1 / 999999)), -Real.sin (Real.arctan (1 / 999999)))) := by
  rw [getExtrapoledLine, if_neg (by simp only [abs_eq_zero]; norm_num)]
  rw [extrapolTarget, if_neg (by norm_num), if_pos (by norm_num), extrapolAngle_horizontal]
  norm_num

/-- C2 (counterexample): at `p1 = (0,0)`, `p2 = (1,0)`, `L = 1` — two distinct
points and a positive length — the claimed property fails: the returned
segment's direction is not collinear with `p1 → p2`, because the `+0.000001`
fudge perturbs the angle to `arctan(10⁻⁶ / (1 − 10⁻⁶)) ≠ 0`. -/
theorem extrapolation_counterexample :
    ¬ extrapolationClaimAt ((0 : ℝ), (0 : ℝ)) ((1 : ℝ), (0 : ℝ)) 1 := by
  intro hcl
  obtain ⟨b, hb, -, hcol⟩ := hcl
  rw [getExtrapoledLine_horizontal] at hb
  have hbv := Option.some_inj.mp hb
  have hbe : b = (1 + Real.cos (Real.arctan (1 / 999999)),
      -Real.sin (Real.arctan (1 / 999999))) := (congrArg Prod.snd hbv).symm
  rw [isCollinear, hbe] at hcol
  norm_num at hcol
  rw [Real.sin_arctan] at hcol
  have hq : Real.sqrt (1 + (1 / 999999 : ℝ) ^ 2) ≠ 0 := by positivity
  rcases div_eq_zero_iff.mp hcol with h | h
  · norm_num at h
  · exact hq h

theorem getExtrapoledLine_diag (p : ℝ × ℝ) (tol : ℝ) :
    getExtrapoledLine p p tol
      = some (p, (p.1 - tol * (Real.sqrt 2 / 2), p.2 - tol * (Real.sqrt 2 / 2))) := by
  have hx : p.1 - p.1 + 1 / 1000000 = 1 / 1000000 := by ring
  have hy : p.2 - p.2 + 1 / 1000000 = 1 / 1000000 := by ring
  have hangle : extrapolAngle p p = Real.pi / 4 := by
    rw [extrapolAngle, hx, hy,
      div_self (abs_ne_zero.mpr (by norm_num : (1 / 1000000 : ℝ) ≠ 0)), Real.arctan_one]
  rw [getExtrapoledLine, if_neg (by rw [hx, abs_eq_zero]; norm_num)]
  rw [extrapolTarget, if_pos ⟨le_refl _, le_refl _⟩, hangle, Real.cos_pi_div_four,
    Real.sin_pi_div_four]

/-- C3 (counterexample): for the degenerate input `p1 = p2 = (0,0)` the
function does not fail — it returns a segment. -/
theorem extrapolate_degenerate_counterexample :
    (getExtrapoledLine ((0 : ℝ), (0 : ℝ)) ((0 : ℝ), (0 : ℝ)) 2).isSome = true := by
  rw [getExtrapoledLine_diag]
  rfl

/-- C3 (amended): in the degenerate case `p1 = p2` the extrapolation does not
raise a division-by-zero error and does not fail: thanks to the `+0.000001`
fudge the angle becomes `arctan 1 = π/4` and the function returns the segment
from `p2` to `p2 - tol·(√2/2, √2/2)`. -/
theorem extrapolate_degenerate_amended (p : ℝ × ℝ) (tol : ℝ) :
    getExtrapoledLine p p tol
      = some (p, (p.1 - tol * (Real.sqrt 2 / 2), p.2 - tol * (Real.sqrt 2 / 2))) :=
  getExtrapoledLine_diag p tol

end Momepy
